import Mathlib

/-!
Verification of `lzma-versions.py` (LZMA SDK release git import script).

The script is shallowly embedded below.  Python strings are modelled as
Lean `String`s and all Python string primitives used by the script
(`split`, `lower`, `strip`, `lstrip`, `rstrip`, slicing, `%`-formatting)
are re-implemented over `String.data` (lists of characters), matching
Python's code-point semantics.  Python dicts are modelled as
insertion-ordered association lists (`alistGet` / `alistSet` / `pyDict`),
which preserves both dict-lookup semantics (`KeyError` becomes `Option` /
`Except`) and dict-iteration order — the latter matters because the
script at one point iterates over a dict value directly.
Fallible operations (Python `assert`, `KeyError`, `IndexError`) are
modelled with `Except PErr`.
-/

namespace Lzma

/-- Error sites of the script: each constructor names one `assert` or
implicit runtime error location in `lzma-versions.py`. -/
inductive PErr where
  /-- the `assert len(lines) > 0` in `StripCommonIndentation` -/
  | stripAssert
  /-- the `assert version not in histories` in `ReadHistory` -/
  | dupReadAssert
  /-- the `assert historyVersion in versions` in `ReadHistory` -/
  | unknownVersionAssert
  /-- the `assert date is not None` in `ReadHistories` -/
  | dateAssert
  /-- the `assert log1 == log2` in `CheckForHistoryInconsistencies` -/
  | historyAssert
  /-- the `assert zipfile.is_zipfile(...)` in `Archive.extractall` -/
  | zipAssert
  /-- the `assert tarfile.is_tarfile(...)` in `Archive.extractall` -/
  | tarAssert
  /-- a Python `KeyError` (dict lookup of a missing key) -/
  | keyError
  /-- a Python `IndexError` (e.g. `versions[-1]` on an empty list) -/
  | indexError
deriving DecidableEq, Repr

/-! ## Python string primitives -/

/-- Python `str.lower()` (ASCII-adequate model). -/
def pyLower (s : String) : String :=
  String.mk (s.data.map Char.toLower)

/-- Python `str.lstrip()`. -/
def lstrip (s : String) : String :=
  String.mk (s.data.dropWhile Char.isWhitespace)

/-- Python `str.rstrip()`. -/
def pyRstrip (s : String) : String :=
  String.mk ((s.data.reverse.dropWhile Char.isWhitespace).reverse)

/-- Python `str.strip()`. -/
def pyStrip (s : String) : String :=
  String.mk
    (((s.data.dropWhile Char.isWhitespace).reverse.dropWhile
      Char.isWhitespace).reverse)

/-- Python slicing `s[n:]` (by code points). -/
def pyDrop (s : String) (n : Nat) : String :=
  String.mk (s.data.drop n)

/-- Helper for `splitWsChars`: accumulates the current (reversed) token. -/
def splitWsAux : List Char → List Char → List (List Char)
  | [], acc => if acc.isEmpty then [] else [acc.reverse]
  | c :: cs, acc =>
    if c.isWhitespace then
      if acc.isEmpty then splitWsAux cs []
      else acc.reverse :: splitWsAux cs []
    else splitWsAux cs (c :: acc)

/-- Split a character list on whitespace runs, discarding empty tokens. -/
def splitWsChars (cs : List Char) : List (List Char) :=
  splitWsAux cs []

/-- Python `str.split()` with no argument: split on whitespace runs,
leading/trailing whitespace ignored, no empty tokens. -/
def pySplitWs (s : String) : List String :=
  (splitWsChars s.data).map String.mk

/-- Python `'%-14s' % s` for width `w`: left-justify `s` in a field of
`w` characters, padding with spaces on the right. -/
def pyLJust (s : String) (w : Nat) : String :=
  s ++ String.mk (List.replicate (w - s.length) ' ')

/-- Python `str.endswith(suf)`. -/
def pyEndsWith (s suf : String) : Bool :=
  s.data.drop (s.data.length - suf.data.length) == suf.data

/-- Python `str.startswith(pre)`. -/
def pyStartsWith (s pre : String) : Bool :=
  s.data.take pre.data.length == pre.data

/-- Helper for `splitOnChar`: accumulates the current (reversed) piece. -/
def splitOnCharAux (sep : Char) : List Char → List Char → List String
  | [], acc => [String.mk acc.reverse]
  | c :: cs, acc =>
    if c == sep then String.mk acc.reverse :: splitOnCharAux sep cs []
    else splitOnCharAux sep cs (c :: acc)

/-- Python `str.split(sep)` for a one-character separator: splits at
every occurrence, keeping empty pieces. -/
def splitOnChar (s : String) (sep : Char) : List String :=
  splitOnCharAux sep s.data []

/-- Is `s` a non-empty string of ASCII digits? -/
def isDigits (s : String) : Bool :=
  !s.data.isEmpty && s.data.all Char.isDigit

/-- Python `int(s)` for a string of digits. -/
def digitsToNat (s : String) : Nat :=
  s.data.foldl (fun n c => 10 * n + (c.toNat - 48)) 0

/-! ## Python dicts as insertion-ordered association lists -/

/-- Python dict lookup `d[k]` / `k in d`, as an `Option`. -/
def alistGet {α : Type} (d : List (String × α)) (k : String) : Option α :=
  (d.find? (fun p => p.1 == k)).map Prod.snd

/-- Python dict assignment `d[k] = v`: update in place when the key is
present (keeping its position), append otherwise.  (The dicts built by
the script always have distinct keys, so replacing the first occurrence
is the Python semantics.) -/
def alistSet {α : Type} : List (String × α) → String → α →
    List (String × α)
  | [], k, v => [(k, v)]
  | p :: ps, k, v =>
    if p.1 == k then (k, v) :: ps else p :: alistSet ps k v

/-- Python `dict(pairs)`: later pairs overwrite earlier ones. -/
def pyDict {α : Type} (pairs : List (String × α)) : List (String × α) :=
  pairs.foldl (fun d p => alistSet d p.1 p.2) []

/-! ## Archive catalog (`lzmaArcRe`, `archives`, `versions`) -/

/-- Match of `lzmaArcRe` = `^lzma(\d{3,})\.(?:zip|tar\.bz2|7z)$` against a
filename, returning the digit group.  The digit group is maximal (regex
greediness cannot produce a shorter match here because the digits must be
followed by a literal dot). -/
def lzmaArcMatch (f : String) : Option String :=
  if pyStartsWith f "lzma" then
    let rest := String.mk (f.data.drop 4)
    let digits := String.mk (rest.data.takeWhile Char.isDigit)
    let suffix := String.mk (rest.data.dropWhile Char.isDigit)
    if digits.length ≥ 3 &&
        (suffix == ".zip" || suffix == ".tar.bz2" || suffix == ".7z") then
      some digits
    else
      none
  else
    none

/-- Two-digit decimal rendering of `n < 100` (the fractional part of the
`%.2f` format). -/
def fracPad2 (n : Nat) : String :=
  if n < 10 then "0" ++ toString n else toString n

/-- Version identifier derived from the digit group value `d`: models
`'%.2f' % (d / 100.0)`.  For every digit group small enough that the
IEEE-754 double nearest to `d / 100` is within `0.005` of it (all digit
groups of fewer than 15 digits, far beyond any real release), the float
round-trip prints exactly the decimal `d / 100` with two fractional
digits, which is what this definition computes. -/
def versionId (d : Nat) : String :=
  toString (d / 100) ++ "." ++ fracPad2 (d % 100)

/-- Numeric value of the identifier produced by `versionId d`, i.e. the
`float(k)` sort key used by `sorted(archives.keys(), key=...)`: the
integer part plus the two-digit fractional part over 100. -/
def versionNumVal (d : Nat) : ℚ :=
  ((d / 100 : Nat) : ℚ) + ((d % 100 : Nat) : ℚ) / 100

/-- The `(version, filename)` pairs fed to `dict(...)`, in directory
listing order. -/
def archivePairs (files : List String) : List (String × String) :=
  files.filterMap (fun f =>
    (lzmaArcMatch f).map (fun digits => (versionId (digitsToNat digits), f)))

/-- The `archives` dict: version identifier → archive filename. -/
def archives (files : List String) : List (String × String) :=
  pyDict (archivePairs files)

/-- Value paired with the last occurrence of key `k` in `ps`. -/
def lastAssoc {α : Type} (ps : List (String × α)) (k : String) : Option α :=
  ((ps.filter (fun p => p.1 == k)).getLast?).map Prod.snd

/-! ## History entries

A history entry in the script is the Python dict
`{'date': historyDate, 'log': versionLog}`.  It is modelled as an
insertion-ordered association list over a sum of Python value shapes so
that dict-iteration (which the script performs by mistake in
`CheckForHistoryInconsistencies`) is expressible. -/

/-- A Python value stored in a history-entry dict. -/
inductive PyVal where
  | str : String → PyVal
  | strList : List String → PyVal
deriving DecidableEq, Repr

/-- A history entry: the dict `{'date': ..., 'log': ...}`. -/
abbrev Entry := List (String × PyVal)

/-- Construction of a history entry in `HistoryDone`:
`{'date': historyDate, 'log': versionLog}` with this insertion order. -/
def mkEntry (date : String) (log : List String) : Entry :=
  [("date", PyVal.str date), ("log", PyVal.strList log)]

/-- The `entry['date']` lookup. -/
def entryDate (e : Entry) : Option String :=
  match alistGet e "date" with
  | some (PyVal.str s) => some s
  | _ => none

/-- The `entry['log']` lookup. -/
def entryLog (e : Entry) : Option (List String) :=
  match alistGet e "log" with
  | some (PyVal.strList l) => some l
  | _ => none

/-- The `histories` mapping: recording version → (subject version → entry). -/
abbrev Histories := List (String × List (String × Entry))

/-! ## Release history parser (`historyVersionRe`, `ReadHistory`) -/

/-- Is `s` of the exact shape `\d+\.\d+`? -/
def isVerNum (s : String) : Bool :=
  match splitOnChar s '.' with
  | [a, b] => isDigits a && isDigits b
  | _ => false

/-- Is `s` of the exact shape `\d{4}-\d{2}-\d{2}`? -/
def isDateTok (s : String) : Bool :=
  match splitOnChar s '-' with
  | [a, b, c] =>
    isDigits a && isDigits b && isDigits c &&
      a.length == 4 && b.length == 2 && c.length == 2
  | _ => false

/-- Match of `historyVersionRe` on a whitespace-token list.  The regex
`^\s*(?:Version\s+)?(\d+\.\d+)\s+(?:.*?\s+)?(\d{4}-\d{2}-\d{2})\s*$`
(case-insensitive) matches exactly when: after optionally dropping a
first token equal to `version` (case-insensitively), the first remaining
token is a `\d+\.\d+` number (both capture-relevant tokens are complete
tokens because the groups are bracketed by mandatory whitespace or the
line ends) and the last token is a `\d{4}-\d{2}-\d{2}` date, with at
least one token in between positions (i.e. the version token is not the
last token). -/
def headingMatchToks (toks : List String) : Option (String × String) :=
  let toks :=
    if toks.head?.map pyLower == some "version" then toks.tail else toks
  match toks with
  | v :: rest =>
    if isVerNum v then
      match rest.getLast? with
      | some d => if isDateTok d then some (v, d) else none
      | none => none
    else none
  | [] => none

/-- Match of `historyVersionRe.match(line)`, returning
`(group 1, group 2)` = (subject version, date). -/
def headingMatch (line : String) : Option (String × String) :=
  headingMatchToks (pySplitWs line)

/-- The `StripCommonIndentation` function: `assert len(lines) > 0`
(modelled as `none`), then strip the minimum leading-whitespace count
over all lines from every line.  `commonIndent` starts from
`len(lines[0])` and is folded with `min` over all lines, exactly as in
the source. -/
def StripCommonIndentation (lines : List String) : Option (List String) :=
  match lines with
  | [] => none
  | l0 :: _ =>
    let commonIndent :=
      lines.foldl (fun m line => min m (line.length - (lstrip line).length))
        l0.length
    some (lines.map (fun s => pyDrop s commonIndent))

/-- Parsing state of the loop in `ReadHistory`: the entry dict built so
far for the recording release, and the in-progress
`(historyVersion, historyDate, versionLog)` (`none` when
`historyVersion is None`). -/
structure ParseState where
  entries : List (String × Entry)
  cur : Option (String × String × List String)
deriving Repr

/-- The `HistoryDone` helper: when an entry is in progress, strip its
common indentation (which can only fail on an empty line list) and store
it under its subject version; `none` cur is a no-op. -/
def HistoryDone (st : ParseState) : Except PErr (List (String × Entry)) :=
  match st.cur with
  | none => Except.ok st.entries
  | some (hv, hd, log) =>
    match StripCommonIndentation log with
    | none => Except.error PErr.stripAssert
    | some stripped => Except.ok (alistSet st.entries hv (mkEntry hd stripped))

/-- The token sequence of the banner line
`'HISTORY of the LZMA'.lower().split()`. -/
def bannerToks : List String := pySplitWs (pyLower "HISTORY of the LZMA")

/-- The per-line loop of `ReadHistory` over the (rstripped, non-blank)
lines.  A banner line breaks out of the loop; the trailing `HistoryDone`
call after the loop is performed both on normal exhaustion and after a
break. -/
def parseLines (versions : List String) :
    List String → ParseState → Except PErr (List (String × Entry))
  | [], st => HistoryDone st
  | line :: rest, st =>
    if pySplitWs (pyLower line) == bannerToks then
      HistoryDone st
    else
      match headingMatch line with
      | some (hv, hd) =>
        match HistoryDone st with
        | Except.error e => Except.error e
        | Except.ok entries =>
          if versions.contains hv then
            parseLines versions rest ⟨entries, some (hv, hd, [line])⟩
          else
            Except.error PErr.unknownVersionAssert
      | none =>
        match st.cur with
        | some (hv, hd, log) =>
          parseLines versions rest ⟨st.entries, some (hv, hd, log ++ [line])⟩
        | none => parseLines versions rest st

/-- The pre-loop normalization in `ReadHistory`: rstrip every line and
drop blank lines. -/
def preprocess (raw : List String) : List String :=
  (raw.map pyRstrip).filter (fun s => !(s == ""))

/-- Changelog document location: `extracted/<v>/history.txt`, else
`extracted/<v>/DOC/lzma-history.txt`, else nothing.  `fs` maps a path to
the line list of the file stored there. -/
def findChangelog (fs : String → Option (List String)) (v : String) :
    Option (List String) :=
  match fs ("extracted/" ++ v ++ "/history.txt") with
  | some c => some c
  | none => fs ("extracted/" ++ v ++ "/DOC/lzma-history.txt")

/-- The `ReadHistory` function.  Note that when neither changelog path
exists it returns **before** the `histories[version] = {}` assignment,
leaving `histories` without a binding for `v`. -/
def ReadHistory (fs : String → Option (List String))
    (versions : List String) (histories : Histories) (v : String) :
    Except PErr Histories :=
  if (alistGet histories v).isSome then
    Except.error PErr.dupReadAssert
  else
    match findChangelog fs v with
    | none => Except.ok histories
    | some raw =>
      match parseLines versions (preprocess raw) ⟨[], none⟩ with
      | Except.error e => Except.error e
      | Except.ok entries => Except.ok (alistSet histories v entries)

/-! ## Date resolution (`knownSdkDates`, `GetDateForVersion`) -/

/-- The `knownSdkDates` override table, verbatim from the script. -/
def knownSdkDates : List (String × String) :=
  [("4.62", "2008-12-02"),
   ("9.07", "2009-08-29"),
   ("9.10", "2009-12-22"),
   ("9.20", "2010-11-18"),
   ("9.22", "2011-04-19"),
   ("15.05", "2015-06-14"),
   ("15.06", "2015-08-16"),
   ("15.07", "2015-09-21"),
   ("15.08", "2015-10-05"),
   ("15.10", "2015-11-01"),
   ("15.11", "2015-11-14"),
   ("15.13", "2015-12-31"),
   ("15.14", "2015-12-31"),
   ("18.00", "2018-01-10"),
   ("18.01", "2018-01-28")]

/-- The `GetDateForVersion` function: override table first, then the
most recent release's (`versions[-1]`) recorded entry for `v`, else
`None`.  `versions[-1]` on an empty list is an `IndexError`, and
indexing `histories` with a missing key is a `KeyError`. -/
def GetDateForVersion (histories : Histories) (versions : List String)
    (v : String) : Except PErr (Option String) :=
  match alistGet knownSdkDates v with
  | some d => Except.ok (some d)
  | none =>
    match versions.getLast? with
    | none => Except.error PErr.indexError
    | some lastV =>
      match alistGet histories lastV with
      | none => Except.error PErr.keyError
      | some h =>
        match alistGet h v with
        | none => Except.ok none
        | some e =>
          match entryDate e with
          | none => Except.error PErr.keyError
          | some d => Except.ok (some d)

/-! ## Consistency checker (`CheckForHistoryInconsistencies`) -/

/-- Normalization the script *actually* applies to each side of the
comparison: `' '.join(log1).lower().split()` where `log1` is the entry
**dict** — joining a Python dict iterates its keys, so this joins the
key strings `'date'` and `'log'` in insertion order. -/
def tokensOfDict (e : Entry) : List String :=
  pySplitWs (pyLower (String.intercalate " " (e.map Prod.fst)))

/-- Normalization the script's surrounding code clearly *intended*:
`' '.join(entry['log']).lower().split()`, i.e. the token sequence of the
recorded log lines. -/
def tokensOfLog (e : Entry) : List String :=
  pySplitWs (pyLower (String.intercalate " " ((entryLog e).getD [])))

/-- All ordered pairs `(versions[i], versions[j])` with `i < j`. -/
def orderedPairs : List String → List (String × String)
  | [] => []
  | x :: xs => xs.map (fun y => (x, y)) ++ orderedPairs xs

/-- The body of the checker for one pair `(v1, v2)`: the four `continue`
guards, then `assert log1 == log2` on the dict-key token sequences. -/
def checkPair (histories : Histories) (v1 v2 : String) : Bool :=
  match alistGet histories v1, alistGet histories v2 with
  | some h1, some h2 =>
    match alistGet h1 v1, alistGet h2 v1 with
    | some e1, some e2 => tokensOfDict e1 == tokensOfDict e2
    | _, _ => true
  | _, _ => true

/-- The `CheckForHistoryInconsistencies` function: `true` iff no assert
fires over any ordered pair of versions. -/
def CheckForHistoryInconsistencies (histories : Histories)
    (versions : List String) : Bool :=
  (orderedPairs versions).all (fun p => checkPair histories p.1 p.2)

/-! ## `ReadHistories` (parsing, checking, date assertions) -/

/-- The date-resolution loop at the end of `ReadHistories`:
`assert date is not None` for every version, in order. -/
def datesCheck (histories : Histories) (versions : List String) :
    List String → Except PErr Unit
  | [] => Except.ok ()
  | v :: rest =>
    match GetDateForVersion histories versions v with
    | Except.error e => Except.error e
    | Except.ok none => Except.error PErr.dateAssert
    | Except.ok (some _) => datesCheck histories versions rest

/-- The `ReadHistory` loop of `ReadHistories` from an intermediate
`histories` map, over the remaining versions in order. -/
def parseAllFrom (fs : String → Option (List String))
    (versions : List String) (histories : Histories) :
    List String → Except PErr Histories
  | [] => Except.ok histories
  | v :: rest =>
    match ReadHistory fs versions histories v with
    | Except.error e => Except.error e
    | Except.ok h2 => parseAllFrom fs versions h2 rest

/-- The parsing half of `ReadHistories`: the `ReadHistory` loop over
every version in order, accumulating the `histories` map from `{}`. -/
def parseAll (fs : String → Option (List String))
    (versions : List String) : Except PErr Histories :=
  parseAllFrom fs versions [] versions

/-- The `ReadHistories` function: `ReadHistory` for every version in
order, then the pair consistency check, then the date assertions. -/
def ReadHistories (fs : String → Option (List String))
    (versions : List String) : Except PErr Histories :=
  match parseAll fs versions with
  | Except.error e => Except.error e
  | Except.ok histories =>
    if CheckForHistoryInconsistencies histories versions then
      match datesCheck histories versions versions with
      | Except.error e => Except.error e
      | Except.ok _ => Except.ok histories
    else
      Except.error PErr.historyAssert

/-! ## Changelog composition (`GetChangelog`) -/

/-- The line list `cl` built by `GetChangelog version`:
* `fileData` maps a filename to the raw bytes of the file in the current
  directory, so `fileData fname` is the `data = open(src, 'rb').read()`
  of the original archive (the extracted tree is never read);
* `hashHex alg bytes` models `hashlib.new(alg); update(bytes);
  hexdigest()`.

When the most recent release's history holds an entry for `v`, its log
lines are used (with a blank line inserted after the subject line when
line 2 is not already blank); otherwise a single synthesized header line
(`'%-14s %s' % (version, date)` if a date resolves, else the bare
version string). A blank line and the `md5` and `sha1` digest lines of
the archive bytes follow in that order. -/
def GetChangelogLines (fileData : String → List Nat)
    (hashHex : String → List Nat → String) (histories : Histories)
    (archivesD : List (String × String)) (versions : List String)
    (v : String) : Except PErr (List String) :=
  match alistGet archivesD v with
  | none => Except.error PErr.keyError
  | some fname =>
    let data := fileData fname
    match versions.getLast? with
    | none => Except.error PErr.indexError
    | some lastV =>
      match alistGet histories lastV with
      | none => Except.error PErr.keyError
      | some lastH =>
        let clE : Except PErr (List String) :=
          match alistGet lastH v with
          | some e =>
            match entryLog e with
            | none => Except.error PErr.keyError
            | some ls =>
              match ls with
              | l1 :: l2 :: rest =>
                if pyStrip l2 == "" then Except.ok (l1 :: l2 :: rest)
                else Except.ok (l1 :: "" :: l2 :: rest)
              | short => Except.ok short
          | none =>
            match GetDateForVersion histories versions v with
            | Except.error e => Except.error e
            | Except.ok (some date) =>
              Except.ok [pyLJust v 14 ++ " " ++ date]
            | Except.ok none => Except.ok [v]
        match clE with
        | Except.error e => Except.error e
        | Except.ok cl =>
          Except.ok (cl ++ [""] ++ ["md5", "sha1"].map (fun alg =>
            alg ++ ": " ++ hashHex alg data ++ " " ++ fname))

/-- The string returned by `GetChangelog`: `'\n'.join(cl)`. -/
def GetChangelog (fileData : String → List Nat)
    (hashHex : String → List Nat → String) (histories : Histories)
    (archivesD : List (String × String)) (versions : List String)
    (v : String) : Except PErr String :=
  (GetChangelogLines fileData hashHex histories archivesD versions v).map
    (String.intercalate "\n")

/-! ## Archive extraction (`Archive.extractall`) -/

/-- Abstract view of an archive file on disk: its filename, whether the
zipfile / tarfile modules recognize it, and the member paths its
container holds (which the respective library writes under the
destination when asked to extract). -/
structure Arc where
  name : String
  validZip : Bool
  validTar : Bool
  entries : List String
deriving Repr

/-- The `Archive.extractall` method.  Dispatch on the filename suffix:
`.zip` asserts `zipfile.is_zipfile` then extracts every member;
`.tar.bz2` asserts `tarfile.is_tarfile` then extracts every member;
anything else takes the `libarchive` branch, whose first statement
`self.archive.endswith('.7z')` is a bare expression (its value is
discarded — not an assert), after which every member is extracted.  No
branch inspects member paths.  The returned list is the sequence of
member paths written under the destination directory. -/
def extractall (a : Arc) : Except PErr (List String) :=
  if pyEndsWith a.name ".zip" then
    if a.validZip then Except.ok a.entries else Except.error PErr.zipAssert
  else if pyEndsWith a.name ".tar.bz2" then
    if a.validTar then Except.ok a.entries else Except.error PErr.tarAssert
  else
    Except.ok a.entries

/-- Path-safety predicate of the specification: an entry path is unsafe
when it is absolute or escapes the destination directory via a `..`
component.  (Stated from the spec for comparison; the script itself
contains no such check on the extraction path — the absolute-path assert
in `CheckArchives` sits in a function that is never called.) -/
def pathEscapesDest (p : String) : Bool :=
  pyStartsWith p "/" || (splitOnChar p '/').contains ".."

/-! ## Repository committer and main pipeline -/

/-- State threaded through `AddSdkVersions`: `memTags` is the in-memory
`tags` set read once by `ReadTags` (never updated afterwards), `repoTags`
the tags actually present in the repository (grown by `git tag`),
`commits` the versions committed this run, `repoChanged` the global
flag. -/
structure RunState where
  memTags : List String
  repoTags : List String
  commits : List String
  repoChanged : Bool
deriving Repr

/-- The `AddVersionToRepository` function: skip when the version is in
the in-memory tag set, otherwise copy/stage/commit/tag (modelled as
recording the commit and the new repository tag) and set
`repo_changed`. -/
def AddVersionToRepository (st : RunState) (v : String) : RunState :=
  if st.memTags.contains v then st
  else
    { st with
      repoTags := st.repoTags ++ [v]
      commits := st.commits ++ [v]
      repoChanged := true }

/-- The `AddSdkVersions` loop over all versions in catalog order. -/
def AddSdkVersions (repoTags : List String) (versions : List String) :
    RunState :=
  versions.foldl AddVersionToRepository
    ⟨repoTags, repoTags, [], false⟩

/-- Observable outcome of a completed run. -/
structure Outcome where
  repoTags : List String
  commits : List String
  repoChanged : Bool
  noticePrinted : Bool
  exitCode : Nat
deriving Repr

/-- The script's top-level sequence after argument parsing and
extraction: `ReadHistories` (which can abort the run), then
`UpdateRepository` (read tags, add every version), then the final
`if not repo_changed: print('No new versions were found')`.  A normal
completion exits with status 0; an uncaught assertion (`Except.error`)
aborts before any commit of this run is made when it occurs inside
`ReadHistories`. -/
def mainRun (fs : String → Option (List String)) (versions : List String)
    (repoTags : List String) : Except PErr Outcome :=
  match ReadHistories fs versions with
  | Except.error e => Except.error e
  | Except.ok _ =>
    let st := AddSdkVersions repoTags versions
    Except.ok
      { repoTags := st.repoTags
        commits := st.commits
        repoChanged := st.repoChanged
        noticePrinted := !st.repoChanged
        exitCode := 0 }

/-! ## Helper lemmas on association lists -/

theorem alistGet_alistSet_self {α : Type} (d : List (String × α))
    (k : String) (v : α) : alistGet (alistSet d k v) k = some v := by
  induction d with
  | nil => simp [alistSet, alistGet, List.find?]
  | cons p ps ih =>
    by_cases hp : (p.1 == k) = true
    · simp [alistSet, hp, alistGet, List.find?]
    · simp only [alistSet, hp, if_false]
      simpa [alistGet, List.find?_cons, hp] using ih

theorem alistGet_alistSet_ne {α : Type} (d : List (String × α))
    (k k' : String) (v : α) (hne : (k == k') = false) :
    alistGet (alistSet d k v) k' = alistGet d k' := by
  induction d with
  | nil => simp [alistSet, alistGet, List.find?, hne]
  | cons p ps ih =>
    by_cases hp : (p.1 == k) = true
    · have hpk : p.1 = k := by simpa using hp
      have hp' : (p.1 == k') = false := by
        rw [hpk]; exact hne
      simp [alistSet, hp, alistGet, List.find?_cons, hne, hp']
    · simp only [alistSet, hp, if_false]
      by_cases hq : (p.1 == k') = true
      · simp [alistGet, List.find?_cons, hq]
      · simpa [alistGet, List.find?_cons, hq] using ih

theorem lastAssoc_cons_pos {α : Type} (p : String × α)
    (ps : List (String × α)) (k : String) (hp : (p.1 == k) = true) :
    lastAssoc (p :: ps) k = (lastAssoc ps k).or (some p.2) := by
  unfold lastAssoc
  simp only [List.filter_cons, hp, if_true]
  cases hf : List.filter (fun q => q.1 == k) ps with
  | nil => simp
  | cons x xs =>
    rw [List.getLast?_cons_cons]
    cases hg : (x :: xs).getLast? with
    | none => rw [List.getLast?_eq_none_iff] at hg; exact absurd hg (by simp)
    | some y => simp

theorem alistGet_pyDict_foldl {α : Type} (ps : List (String × α))
    (d : List (String × α)) (k : String) :
    alistGet (ps.foldl (fun d p => alistSet d p.1 p.2) d) k =
      (lastAssoc ps k).or (alistGet d k) := by
  induction ps generalizing d with
  | nil => simp [lastAssoc]
  | cons p ps ih =>
    simp only [List.foldl_cons]
    rw [ih]
    by_cases hp : (p.1 == k) = true
    · have hpk : p.1 = k := by simpa using hp
      rw [lastAssoc_cons_pos p ps k hp, Option.or_assoc]
      subst hpk
      rw [alistGet_alistSet_self]
      cases lastAssoc ps p.1 <;> simp [Option.or]
    · rw [alistGet_alistSet_ne d p.1 k p.2 (eq_false_of_ne_true hp)]
      unfold lastAssoc
      simp [List.filter_cons, eq_false_of_ne_true hp]

theorem datesCheck_none_error (histories : Histories)
    (versions : List String) (v : String)
    (hv : GetDateForVersion histories versions v = Except.ok none) :
    ∀ l, v ∈ l → ∃ e, datesCheck histories versions l = Except.error e := by
  intro l
  induction l with
  | nil => intro h; cases h
  | cons u rest ih =>
    intro hmem
    cases hu : GetDateForVersion histories versions u with
    | error e => exact ⟨e, by simp [datesCheck, hu]⟩
    | ok o =>
      cases o with
      | none => exact ⟨PErr.dateAssert, by simp [datesCheck, hu]⟩
      | some d =>
        rcases List.mem_cons.mp hmem with rfl | hmem2
        · rw [hu] at hv; cases hv
        · rcases ih hmem2 with ⟨e, he⟩
          exact ⟨e, by simp [datesCheck, hu, he]⟩

theorem addVersion_memTags (st : RunState) (v : String) :
    (AddVersionToRepository st v).memTags = st.memTags := by
  unfold AddVersionToRepository; split <;> rfl

theorem addAll_memTags (l : List String) (st : RunState) :
    (l.foldl AddVersionToRepository st).memTags = st.memTags := by
  induction l generalizing st with
  | nil => rfl
  | cons v rest ih =>
    simp only [List.foldl_cons]
    rw [ih, addVersion_memTags]

theorem addVersion_repoTags_mono (st : RunState) (v x : String)
    (hx : x ∈ st.repoTags) : x ∈ (AddVersionToRepository st v).repoTags := by
  unfold AddVersionToRepository
  split
  · exact hx
  · simp [hx]

theorem addAll_repoTags_mono (l : List String) (st : RunState) (x : String)
    (hx : x ∈ st.repoTags) :
    x ∈ (l.foldl AddVersionToRepository st).repoTags := by
  induction l generalizing st with
  | nil => exact hx
  | cons v rest ih =>
    simp only [List.foldl_cons]
    exact ih _ (addVersion_repoTags_mono st v x hx)

theorem addAll_covers (l : List String) (st : RunState)
    (hsub : ∀ x, st.memTags.contains x = true → x ∈ st.repoTags) :
    ∀ v ∈ l, v ∈ (l.foldl AddVersionToRepository st).repoTags := by
  induction l generalizing st with
  | nil => intro v hv; cases hv
  | cons u rest ih =>
    intro v hv
    simp only [List.foldl_cons]
    rcases List.mem_cons.mp hv with rfl | hv2
    · apply addAll_repoTags_mono
      unfold AddVersionToRepository
      split
      · next hmem => exact hsub v hmem
      · simp
    · refine ih _ ?_ v hv2
      intro x hx
      rw [addVersion_memTags] at hx
      exact addVersion_repoTags_mono _ _ _ (hsub x hx)

theorem addAll_skip (l : List String) (st : RunState)
    (hall : ∀ v ∈ l, st.memTags.contains v = true) :
    l.foldl AddVersionToRepository st = st := by
  induction l with
  | nil => rfl
  | cons u rest ih =>
    simp only [List.foldl_cons]
    have hu : u ∈ st.memTags := by simpa using hall u (by simp)
    rw [show AddVersionToRepository st u = st by
      unfold AddVersionToRepository; simp [hu]]
    exact ih (fun v hv => hall v (List.mem_cons_of_mem _ hv))

/-! ## Helper lemmas for the parser invariant (C10) -/

theorem splitWsAux_ws_lead (pre cs : List Char)
    (h : ∀ c ∈ pre, c.isWhitespace = true) :
    splitWsAux (pre ++ cs) [] = splitWsAux cs [] := by
  induction pre with
  | nil => rfl
  | cons c pre ih =>
    have hc : c.isWhitespace = true := h c (by simp)
    simp only [List.cons_append, splitWsAux, hc, if_true, List.isEmpty_nil]
    exact ih (fun x hx => h x (by simp [hx]))

theorem splitWsChars_drop_ws (k : Nat) (cs : List Char)
    (hk : k ≤ (cs.takeWhile Char.isWhitespace).length) :
    splitWsChars (cs.drop k) = splitWsChars cs := by
  have hsplit :=
    List.takeWhile_append_dropWhile (p := Char.isWhitespace) (l := cs)
  have h1 : cs.drop k = (cs.takeWhile Char.isWhitespace).drop k ++
      cs.dropWhile Char.isWhitespace := by
    conv_lhs => rw [← hsplit]
    exact List.drop_append_of_le_length hk
  unfold splitWsChars
  rw [h1, splitWsAux_ws_lead _ _
    (fun c hc => List.mem_takeWhile_imp (List.mem_of_mem_drop hc))]
  conv_rhs => rw [← hsplit]
  rw [splitWsAux_ws_lead _ _ (fun c hc => List.mem_takeWhile_imp hc)]

theorem pySplitWs_pyDrop (s : String) (k : Nat)
    (hk : k ≤ s.length - (lstrip s).length) :
    pySplitWs (pyDrop s k) = pySplitWs s := by
  have hlen : s.length - (lstrip s).length =
      (s.data.takeWhile Char.isWhitespace).length := by
    have hcat := congrArg List.length
      (List.takeWhile_append_dropWhile (p := Char.isWhitespace)
        (l := s.data))
    rw [List.length_append] at hcat
    show s.data.length - (s.data.dropWhile Char.isWhitespace).length = _
    omega
  unfold pySplitWs pyDrop
  show (splitWsChars (s.data.drop k)).map String.mk = _
  rw [splitWsChars_drop_ws k s.data (by rw [← hlen]; exact hk)]

theorem headingMatch_pyDrop (s : String) (k : Nat)
    (hk : k ≤ s.length - (lstrip s).length) :
    headingMatch (pyDrop s k) = headingMatch s := by
  unfold headingMatch
  rw [pySplitWs_pyDrop s k hk]

theorem foldl_min_le (f : String → Nat) (l : List String) (a : Nat) :
    l.foldl (fun m x => min m (f x)) a ≤ a := by
  induction l generalizing a with
  | nil => exact Nat.le_refl a
  | cons x xs ih => exact Nat.le_trans (ih _) (Nat.min_le_left _ _)

theorem strip_cons (h : String) (t : List String) :
    ∃ k, k ≤ h.length - (lstrip h).length ∧
      StripCommonIndentation (h :: t) =
        some (pyDrop h k :: t.map (fun s => pyDrop s k)) := by
  refine ⟨(h :: t).foldl
    (fun m line => min m (line.length - (lstrip line).length)) h.length,
    ?_, ?_⟩
  · show List.foldl _ h.length (h :: t) ≤ _
    rw [List.foldl_cons]
    exact Nat.le_trans (foldl_min_le _ t _) (Nat.min_le_right _ _)
  · simp [StripCommonIndentation]

/-- Invariant of the in-progress entry: its accumulated line list starts
with the heading line whose regex match opened the entry. -/
def curWF : Option (String × String × List String) → Prop
  | none => True
  | some (hv, hd, log) =>
    ∃ h t, log = h :: t ∧ headingMatch h = some (hv, hd)

/-- Invariant of a finalized entry: it is `mkEntry` of a non-empty line
list whose first line still matches as a heading line for the entry's
own subject version and date. -/
def entryWF (p : String × Entry) : Prop :=
  ∃ hd h t, p.2 = mkEntry hd (h :: t) ∧ headingMatch h = some (p.1, hd)

/-- All entries of a recording release satisfy `entryWF`. -/
def entriesWF (entries : List (String × Entry)) : Prop :=
  ∀ p ∈ entries, entryWF p

theorem mem_alistSet {α : Type} (d : List (String × α)) (k : String)
    (v : α) (p : String × α) (hp : p ∈ alistSet d k v) :
    p ∈ d ∨ p = (k, v) := by
  induction d with
  | nil =>
    simp [alistSet] at hp
    exact Or.inr hp
  | cons q ps ih =>
    by_cases hq : (q.1 == k) = true
    · simp only [alistSet, hq, if_true] at hp
      rcases List.mem_cons.mp hp with rfl | hp2
      · exact Or.inr rfl
      · exact Or.inl (List.mem_cons_of_mem _ hp2)
    · simp only [alistSet, hq, if_false] at hp
      rcases List.mem_cons.mp hp with rfl | hp2
      · exact Or.inl (by simp)
      · rcases ih hp2 with h2 | h2
        · exact Or.inl (List.mem_cons_of_mem _ h2)
        · exact Or.inr h2

theorem HistoryDone_wf (st : ParseState) (hcur : curWF st.cur)
    (hent : entriesWF st.entries) :
    HistoryDone st ≠ Except.error PErr.stripAssert ∧
    ∀ es, HistoryDone st = Except.ok es → entriesWF es := by
  cases hc : st.cur with
  | none =>
    constructor
    · simp [HistoryDone, hc]
    · intro es hes
      simp [HistoryDone, hc] at hes
      rw [← hes]
      exact hent
  | some tri =>
    obtain ⟨hv, hd, log⟩ := tri
    rw [hc] at hcur
    obtain ⟨h, t, rfl, hmatch⟩ := hcur
    obtain ⟨k, hk, hstrip⟩ := strip_cons h t
    constructor
    · simp [HistoryDone, hc, hstrip]
    · intro es hes
      simp only [HistoryDone, hc, hstrip] at hes
      cases hes
      intro p hp
      rcases mem_alistSet _ _ _ p hp with hmem | rfl
      · exact hent p hmem
      · exact ⟨hd, pyDrop h k, t.map (fun s => pyDrop s k), rfl,
          by rw [headingMatch_pyDrop h k hk]; exact hmatch⟩

theorem HistoryDone_error_eq (st : ParseState) (e : PErr)
    (h : HistoryDone st = Except.error e) : e = PErr.stripAssert := by
  cases hc : st.cur with
  | none => simp [HistoryDone, hc] at h
  | some tri =>
    obtain ⟨hv, hd, log⟩ := tri
    cases hs : StripCommonIndentation log with
    | none =>
      simp [HistoryDone, hc, hs] at h
      exact h.symm
    | some l2 => simp [HistoryDone, hc, hs] at h

theorem parseLines_wf (versions : List String) (lines : List String)
    (st : ParseState) (hcur : curWF st.cur) (hent : entriesWF st.entries) :
    parseLines versions lines st ≠ Except.error PErr.stripAssert ∧
    ∀ es, parseLines versions lines st = Except.ok es → entriesWF es := by
  induction lines generalizing st with
  | nil => simpa [parseLines] using HistoryDone_wf st hcur hent
  | cons line rest ih =>
    by_cases hb : (pySplitWs (pyLower line) == bannerToks) = true
    · simpa [parseLines, hb] using HistoryDone_wf st hcur hent
    · cases hm : headingMatch line with
      | some pr =>
        obtain ⟨hv, hd⟩ := pr
        cases hdone : HistoryDone st with
        | error e =>
          exact absurd
            (HistoryDone_error_eq st e hdone ▸ hdone)
            (HistoryDone_wf st hcur hent).1
        | ok entries =>
          have hentries := (HistoryDone_wf st hcur hent).2 entries hdone
          by_cases hver : hv ∈ versions
          · have heq : parseLines versions (line :: rest) st =
                parseLines versions rest ⟨entries, some (hv, hd, [line])⟩ := by
              simp [parseLines, hb, hm, hdone, hver]
            rw [heq]
            exact ih _ ⟨line, [], rfl, hm⟩ hentries
          · have heq : parseLines versions (line :: rest) st =
                Except.error PErr.unknownVersionAssert := by
              simp [parseLines, hb, hm, hdone, hver]
            rw [heq]
            exact ⟨by simp, fun es hes => by cases hes⟩
      | none =>
        cases hcc : st.cur with
        | some tri =>
          obtain ⟨hv, hd, log⟩ := tri
          rw [hcc] at hcur
          obtain ⟨h0, t0, hlog, hmatch⟩ := hcur
          have heq : parseLines versions (line :: rest) st =
              parseLines versions rest
                ⟨st.entries, some (hv, hd, log ++ [line])⟩ := by
            simp [parseLines, hb, hm, hcc]
          rw [heq]
          exact ih _ ⟨h0, t0 ++ [line], by rw [hlog]; rfl, hmatch⟩ hent
        | none =>
          have heq : parseLines versions (line :: rest) st =
              parseLines versions rest st := by
            simp [parseLines, hb, hm, hcc]
          rw [heq]
          exact ih st (by rw [hcc]; trivial) hent

/-! ## Claim theorems -/

/-- C1: the claim states that whenever two releases both record a
history entry for the earlier release's own version, the checker
compares the two logs as token sequences and fails fatally when they
differ — in particular for two transcriptions differing in exactly one
word.  The code instead joins the entry *dict* (`' '.join(log1)` where
`log1 = histories[version][version]` is the dict), which iterates the
dict's keys, so both sides always normalize to `["date", "log"]` and the
assertion can never fire: on the input below, whose two recorded logs
for version 9.04 differ in exactly one word (`bug` vs `bugs`), the
checker succeeds.  The intended token comparison (`tokensOfLog`)
distinguishes the two logs, the actual one (`tokensOfDict`) does not. -/
theorem c1_checker_never_fires :
    CheckForHistoryInconsistencies
      [("9.04",
        [("9.04", mkEntry "2009-05-30" ["9.04  2009-05-30", "- fixed bug"])]),
       ("9.05",
        [("9.04", mkEntry "2009-05-30" ["9.04  2009-05-30", "- fixed bugs"])])]
      ["9.04", "9.05"] = true ∧
    tokensOfLog (mkEntry "2009-05-30" ["9.04  2009-05-30", "- fixed bug"]) ≠
      tokensOfLog (mkEntry "2009-05-30" ["9.04  2009-05-30", "- fixed bugs"]) ∧
    tokensOfDict (mkEntry "2009-05-30" ["9.04  2009-05-30", "- fixed bug"]) =
      ["date", "log"] ∧
    tokensOfDict (mkEntry "2009-05-30" ["9.04  2009-05-30", "- fixed bugs"]) =
      ["date", "log"] := by
  refine ⟨by decide, by decide, by decide, by decide⟩

/-- C2, counterexample: a well-formed zip archive holding a member whose
path escapes the destination directory is extracted without any error
and the escaping member is written — contradicting the claim that an
entry failing the path-safety check triggers an error and is not
written.  (The only member-path check in the source, the absolute-path
assert in `CheckArchives`, lives in a function the script never calls.)
-/
theorem c2_counterexample :
    extractall
      { name := "lzma900.zip", validZip := true, validTar := true,
        entries := ["../../etc/evil"] } =
      Except.ok ["../../etc/evil"] ∧
    pathEscapesDest "../../etc/evil" = true := by
  exact ⟨rfl, by decide⟩

/-- C2, amended: `extractall` fails on a `.zip` archive that
`zipfile` does not recognize and on a `.tar.bz2` archive that `tarfile`
does not recognize; for any other name (the `libarchive` branch, used
for `.7z`) this code performs no validity check of its own; and in every
successful case all member paths are written unconditionally — no
path-safety check is applied to any of the three formats. -/
theorem c2_extractall_amended (a : Arc) :
    (pyEndsWith a.name ".zip" = true → a.validZip = false →
      extractall a = Except.error PErr.zipAssert) ∧
    (pyEndsWith a.name ".zip" = false → pyEndsWith a.name ".tar.bz2" = true →
      a.validTar = false → extractall a = Except.error PErr.tarAssert) ∧
    (pyEndsWith a.name ".zip" = false → pyEndsWith a.name ".tar.bz2" = false →
      extractall a = Except.ok a.entries) ∧
    (∀ l, extractall a = Except.ok l → l = a.entries) := by
  unfold extractall
  refine ⟨?_, ?_, ?_, ?_⟩
  · intro h1 h2; simp [h1, h2]
  · intro h1 h2 h3; simp [h1, h2, h3]
  · intro h1 h2; simp [h1, h2]
  · intro l h
    by_cases h1 : pyEndsWith a.name ".zip" = true
    · simp only [h1, if_true] at h
      by_cases h2 : a.validZip = true
      · simp [h2] at h; exact h.symm
      · simp [eq_false_of_ne_true h2] at h
    · simp only [eq_false_of_ne_true h1, Bool.false_eq_true, if_false] at h
      by_cases h2 : pyEndsWith a.name ".tar.bz2" = true
      · simp only [h2, if_true] at h
        by_cases h3 : a.validTar = true
        · simp [h3] at h; exact h.symm
        · simp [eq_false_of_ne_true h3] at h
      · simp only [eq_false_of_ne_true h2, Bool.false_eq_true, if_false] at h
        cases h; rfl

/-- C2, witness for the amended theorem. -/
theorem c2_extractall_amended_witness :
    extractall
      { name := "x.zip", validZip := false, validTar := true,
        entries := [] } = Except.error PErr.zipAssert ∧
    ["../e"] =
      (Arc.mk "x.7z" true true ["../e"]).entries := by
  constructor
  · exact (c2_extractall_amended _).1 (by decide) rfl
  · exact (c2_extractall_amended _).2.2.2 _ rfl

/-- C4, counterexample: the filenames `lzma905.zip` and `lzma905.7z`
both derive version identifier `9.05`; catalog construction performs
`dict(...)`, which succeeds and silently keeps only the later filename —
there is no failure path, contradicting the claim that the run aborts
with a conflict error. -/
theorem c4_counterexample :
    lzmaArcMatch "lzma905.zip" = some "905" ∧
    lzmaArcMatch "lzma905.7z" = some "905" ∧
    archives ["lzma905.zip", "lzma905.7z"] = [("9.05", "lzma905.7z")] := by
  refine ⟨by decide, by decide, by decide⟩

/-- C4, amended: when several archive filenames map to the same derived
version identifier, the catalog keeps, for that identifier, exactly the
value of the *last* matching filename in directory-listing order, with
no error. -/
theorem c4_last_wins (files : List String) (v : String) :
    alistGet (archives files) v = lastAssoc (archivePairs files) v := by
  unfold archives pyDict
  rw [alistGet_pyDict_foldl]
  rw [show alistGet ([] : List (String × String)) v = none from rfl]
  exact Option.or_none

/-- C5: the derived identifier of digit group `1805` is `"18.05"` and of
`905` is `"9.05"`; the fractional part always has exactly two digits;
and the numeric sort key of the identifier (its value as parsed back by
`float`, integer part plus two-digit fraction over 100) is exactly
`d / 100` and is strictly monotonic in the embedded digit-group value,
so the catalog's ascending ordering of identifiers is monotonic with the
digit groups. -/
theorem c5_versionId_monotone :
    versionId 1805 = "18.05" ∧ versionId 905 = "9.05" ∧
    archivePairs ["lzma1805.7z", "lzma905.zip"] =
      [("18.05", "lzma1805.7z"), ("9.05", "lzma905.zip")] ∧
    (∀ d : Nat, (fracPad2 (d % 100)).length = 2) ∧
    (∀ d : Nat, versionNumVal d = (d : ℚ) / 100) ∧
    (∀ d1 d2 : Nat, d1 < d2 → versionNumVal d1 < versionNumVal d2) := by
  have hval : ∀ d : Nat, versionNumVal d = (d : ℚ) / 100 := by
    intro d
    unfold versionNumVal
    rw [eq_div_iff (by norm_num : (100 : ℚ) ≠ 0)]
    have hd : ((100 * (d / 100) + d % 100 : Nat) : ℚ) = (d : ℚ) := by
      rw [Nat.div_add_mod]
    push_cast at hd
    ring_nf
    linarith [hd]
  refine ⟨by decide, by decide, by decide, ?_, hval, ?_⟩
  · intro d
    have hb : d % 100 < 100 := Nat.mod_lt _ (by norm_num)
    have hall : ∀ n : Nat, n < 100 → (fracPad2 n).length = 2 := by decide
    exact hall _ hb
  · intro d1 d2 h
    rw [hval d1, hval d2]
    rw [div_lt_div_iff_of_pos_right (by norm_num : (0 : ℚ) < 100)]
    exact_mod_cast h

/-- C5, witness. -/
theorem c5_witness :
    (905 : Nat) < 1805 ∧ versionNumVal 905 < versionNumVal 1805 :=
  ⟨by decide, c5_versionId_monotone.2.2.2.2.2 905 1805 (by decide)⟩

/-- C3: `GetDateForVersion` returns the override-table date whenever the
version is present there, regardless of what the most recent release's
history records for it; otherwise the date of the most recent release's
recorded entry for the version; otherwise no date — and when a cataloged
version resolves to no date the whole run aborts with an error inside
`ReadHistories`, before the repository-update stage, so no commit of the
run is made. -/
theorem c3_date_resolution (histories : Histories) (versions : List String)
    (v lastV : String) (hlast : versions.getLast? = some lastV) :
    (∀ d, alistGet knownSdkDates v = some d →
        GetDateForVersion histories versions v = Except.ok (some d)) ∧
    (∀ h e d, alistGet knownSdkDates v = none →
        alistGet histories lastV = some h → alistGet h v = some e →
        entryDate e = some d →
        GetDateForVersion histories versions v = Except.ok (some d)) ∧
    (∀ h, alistGet knownSdkDates v = none →
        alistGet histories lastV = some h → alistGet h v = none →
        GetDateForVersion histories versions v = Except.ok none) ∧
    (∀ fs repoTags, v ∈ versions →
        parseAll fs versions = Except.ok histories →
        GetDateForVersion histories versions v = Except.ok none →
        ∃ e, mainRun fs versions repoTags = Except.error e) := by
  refine ⟨?_, ?_, ?_, ?_⟩
  · intro d hd
    simp [GetDateForVersion, hd]
  · intro h e d hkn hh he hdate
    simp [GetDateForVersion, hkn, hlast, hh, he, hdate]
  · intro h hkn hh he
    simp [GetDateForVersion, hkn, hlast, hh, he]
  · intro fs repoTags hmem hparse hnone
    rcases datesCheck_none_error histories versions v hnone versions hmem
      with ⟨e, he⟩
    by_cases hc : CheckForHistoryInconsistencies histories versions = true
    · exact ⟨e, by simp [mainRun, ReadHistories, hparse, hc, he]⟩
    · refine ⟨PErr.historyAssert, ?_⟩
      simp [mainRun, ReadHistories, hparse, eq_false_of_ne_true hc]

/-- C3, witness: version `9.07` is in the override table with date
`2009-08-29`, and resolves to that date even when the most recent
release's history records a different date for it; and a run over
versions `9.04`, `9.05` in which the most recent release's changelog
holds no entry for `9.04` (which is not in the override table) aborts
with an error. -/
theorem c3_witness :
    GetDateForVersion [("9.07", [("9.07", mkEntry "1999-01-01" ["x"])])]
      ["9.07"] "9.07" = Except.ok (some "2009-08-29") ∧
    (∃ e, mainRun
      (fun p => if p = "extracted/9.05/history.txt" then
        some ["9.05  2009-06-01", "- x"] else none)
      ["9.04", "9.05"] [] = Except.error e) := by
  constructor
  · exact (c3_date_resolution _ ["9.07"] "9.07" "9.07" rfl).1 "2009-08-29" rfl
  · exact (c3_date_resolution
      [("9.05", [("9.05", mkEntry "2009-06-01" ["9.05  2009-06-01", "- x"])])]
      ["9.04", "9.05"] "9.04" "9.05" rfl).2.2.2 _ []
      (by simp) rfl rfl

/-- Header format stated by the specification for C7, following its
words: the version *left-padded* (i.e. padded on the left with spaces)
to 14 characters, with the date appended directly. -/
def specHeaderLeftPad (v d : String) : String :=
  String.mk (List.replicate (14 - v.length) ' ') ++ v ++ d

/-- C7, counterexample: for version `9.07` (no self-entry in the most
recent release's history, date resolved from the override table) the
synthesized first line of the composed message is
`'%-14s %s' % (version, date)` — the version left-justified in a field
of 14 characters, followed by a space and the date — which differs from
the claimed format `"<version, left-padded to 14 chars><date>"`
(version padded on the left to 14 characters, date appended with no
separator). -/
theorem c7_counterexample :
    GetChangelogLines (fun _ => []) (fun _ _ => "") [("9.07", [])]
        [("9.07", "lzma907.zip")] ["9.07"] "9.07" =
      Except.ok ["9.07           2009-08-29", "",
                 "md5:  lzma907.zip", "sha1:  lzma907.zip"] ∧
    "9.07           2009-08-29" ≠ specHeaderLeftPad "9.07" "2009-08-29" := by
  exact ⟨rfl, by decide⟩

/-- C7, amended: when the most recent release's history has no entry for
the version, the first line of the composed message is
`pyLJust version 14 ++ " " ++ date` (the version left-justified — padded
on the *right* — to 14 characters, then a single space, then the date)
when a date resolves, and the bare version string when none does. -/
theorem c7_synth_header (fileData : String → List Nat)
    (hashHex : String → List Nat → String) (histories : Histories)
    (archivesD : List (String × String)) (versions : List String)
    (v lastV fname : String) (lastH : List (String × Entry))
    (hf : alistGet archivesD v = some fname)
    (hlast : versions.getLast? = some lastV)
    (hh : alistGet histories lastV = some lastH)
    (hno : alistGet lastH v = none) :
    (∀ d, GetDateForVersion histories versions v = Except.ok (some d) →
      ∃ rest, GetChangelogLines fileData hashHex histories archivesD
        versions v = Except.ok ((pyLJust v 14 ++ " " ++ d) :: rest)) ∧
    (GetDateForVersion histories versions v = Except.ok none →
      ∃ rest, GetChangelogLines fileData hashHex histories archivesD
        versions v = Except.ok (v :: rest)) := by
  constructor
  · intro d hdate
    refine ⟨["", "md5: " ++ hashHex "md5" (fileData fname) ++ " " ++ fname,
             "sha1: " ++ hashHex "sha1" (fileData fname) ++ " " ++ fname], ?_⟩
    simp [GetChangelogLines, hf, hlast, hh, hno, hdate]
  · intro hdate
    refine ⟨["", "md5: " ++ hashHex "md5" (fileData fname) ++ " " ++ fname,
             "sha1: " ++ hashHex "sha1" (fileData fname) ++ " " ++ fname], ?_⟩
    simp [GetChangelogLines, hf, hlast, hh, hno, hdate]

/-- C7, witness for the amended theorem. -/
theorem c7_witness :
    (∃ rest, GetChangelogLines (fun _ => []) (fun _ _ => "") [("9.05", [])]
        [("9.05", "lzma905.zip")] ["9.05"] "9.05" =
        Except.ok ("9.05" :: rest)) ∧
    (∃ rest, GetChangelogLines (fun _ => []) (fun _ _ => "") [("9.07", [])]
        [("9.07", "lzma907.zip")] ["9.07"] "9.07" =
        Except.ok ((pyLJust "9.07" 14 ++ " " ++ "2009-08-29") :: rest)) := by
  constructor
  · exact (c7_synth_header (fun _ => []) (fun _ _ => "") [("9.05", [])]
      [("9.05", "lzma905.zip")] ["9.05"] "9.05" "9.05" "lzma905.zip" []
      rfl rfl rfl rfl).2 rfl
  · exact (c7_synth_header (fun _ => []) (fun _ _ => "") [("9.07", [])]
      [("9.07", "lzma907.zip")] ["9.07"] "9.07" "9.07" "lzma907.zip" []
      rfl rfl rfl rfl).1 "2009-08-29" rfl

/-- C8: every successfully composed message's line list ends with a
blank line followed by exactly two digest lines, `md5` then `sha1`, each
of the form `"<alg>: <hex digest> <archive filename>"`, where the digest
input is `fileData fname` — the raw bytes of the original archive file
(the file the script opens at `os.path.join(basedir, archives[version])`
in binary mode); the extracted tree is never an input of
`GetChangelogLines`. -/
theorem c8_hash_lines (fileData : String → List Nat)
    (hashHex : String → List Nat → String) (histories : Histories)
    (archivesD : List (String × String)) (versions : List String)
    (v fname : String) (hf : alistGet archivesD v = some fname) :
    ∀ ls, GetChangelogLines fileData hashHex histories archivesD versions v =
        Except.ok ls →
      GetChangelog fileData hashHex histories archivesD versions v =
        Except.ok (String.intercalate "\n" ls) ∧
      ∃ body, ls = body ++
        ["", "md5: " ++ hashHex "md5" (fileData fname) ++ " " ++ fname,
         "sha1: " ++ hashHex "sha1" (fileData fname) ++ " " ++ fname] := by
  intro ls h
  refine ⟨by unfold GetChangelog; rw [h]; rfl, ?_⟩
  cases hlast : versions.getLast? with
  | none => simp [GetChangelogLines, hf, hlast] at h
  | some lastV =>
    cases hh : alistGet histories lastV with
    | none => simp [GetChangelogLines, hf, hlast, hh] at h
    | some lastH =>
      cases he : alistGet lastH v with
      | some e =>
        cases hlog : entryLog e with
        | none => simp [GetChangelogLines, hf, hlast, hh, he, hlog] at h
        | some l0 =>
          match l0, hlog with
          | [], hlog =>
            have hexp : GetChangelogLines fileData hashHex histories
                archivesD versions v =
                Except.ok (([] : List String) ++
                  ["", "md5: " ++ hashHex "md5" (fileData fname) ++ " " ++
                    fname,
                   "sha1: " ++ hashHex "sha1" (fileData fname) ++ " " ++
                    fname]) := by
              simp [GetChangelogLines, hf, hlast, hh, he, hlog]
            rw [hexp] at h
            cases h
            exact ⟨[], by simp⟩
          | [l1], hlog =>
            have hexp : GetChangelogLines fileData hashHex histories
                archivesD versions v =
                Except.ok ([l1] ++
                  ["", "md5: " ++ hashHex "md5" (fileData fname) ++ " " ++
                    fname,
                   "sha1: " ++ hashHex "sha1" (fileData fname) ++ " " ++
                    fname]) := by
              simp [GetChangelogLines, hf, hlast, hh, he, hlog]
            rw [hexp] at h
            cases h
            exact ⟨[l1], by simp⟩
          | l1 :: l2 :: rest, hlog =>
            by_cases hc : pyStrip l2 = ""
            · have hexp : GetChangelogLines fileData hashHex histories
                  archivesD versions v =
                  Except.ok ((l1 :: l2 :: rest) ++
                    ["", "md5: " ++ hashHex "md5" (fileData fname) ++ " " ++
                      fname,
                     "sha1: " ++ hashHex "sha1" (fileData fname) ++ " " ++
                      fname]) := by
                simp [GetChangelogLines, hf, hlast, hh, he, hlog, hc]
              rw [hexp] at h
              cases h
              exact ⟨l1 :: l2 :: rest, by simp⟩
            · have hexp : GetChangelogLines fileData hashHex histories
                  archivesD versions v =
                  Except.ok ((l1 :: "" :: l2 :: rest) ++
                    ["", "md5: " ++ hashHex "md5" (fileData fname) ++ " " ++
                      fname,
                     "sha1: " ++ hashHex "sha1" (fileData fname) ++ " " ++
                      fname]) := by
                simp [GetChangelogLines, hf, hlast, hh, he, hlog, hc]
              rw [hexp] at h
              cases h
              exact ⟨l1 :: "" :: l2 :: rest, by simp⟩
      | none =>
        cases hdate : GetDateForVersion histories versions v with
        | error e =>
          simp [GetChangelogLines, hf, hlast, hh, he, hdate] at h
        | ok o =>
          cases o with
          | some d =>
            have hexp : GetChangelogLines fileData hashHex histories
                archivesD versions v =
                Except.ok ([pyLJust v 14 ++ " " ++ d] ++
                  ["", "md5: " ++ hashHex "md5" (fileData fname) ++ " " ++
                    fname,
                   "sha1: " ++ hashHex "sha1" (fileData fname) ++ " " ++
                    fname]) := by
              simp [GetChangelogLines, hf, hlast, hh, he, hdate]
            rw [hexp] at h
            cases h
            exact ⟨[pyLJust v 14 ++ " " ++ d], by simp⟩
          | none =>
            have hexp : GetChangelogLines fileData hashHex histories
                archivesD versions v =
                Except.ok ([v] ++
                  ["", "md5: " ++ hashHex "md5" (fileData fname) ++ " " ++
                    fname,
                   "sha1: " ++ hashHex "sha1" (fileData fname) ++ " " ++
                    fname]) := by
              simp [GetChangelogLines, hf, hlast, hh, he, hdate]
            rw [hexp] at h
            cases h
            exact ⟨[v], by simp⟩

/-- C8, witness. -/
theorem c8_witness :
    GetChangelog (fun _ => []) (fun alg _ => "d" ++ alg) [("9.07", [])]
        [("9.07", "lzma907.zip")] ["9.07"] "9.07" =
      Except.ok (String.intercalate "\n"
        ["9.07           2009-08-29", "",
         "md5: dmd5 lzma907.zip", "sha1: dsha1 lzma907.zip"]) ∧
    ∃ body, (["9.07           2009-08-29", "",
              "md5: dmd5 lzma907.zip", "sha1: dsha1 lzma907.zip"] :
        List String) = body ++
      ["", "md5: dmd5 lzma907.zip", "sha1: dsha1 lzma907.zip"] :=
  c8_hash_lines (fun _ => []) (fun alg _ => "d" ++ alg) [("9.07", [])]
    [("9.07", "lzma907.zip")] ["9.07"] "9.07" "lzma907.zip" rfl _ rfl

/-- C9, counterexample: when neither changelog path exists, `ReadHistory`
returns with `histories` unchanged — the recording release gets **no**
entry set at all, rather than an empty one — and a later unguarded
lookup of the most recent release's history (`GetDateForVersion` for a
version outside the override table) raises a `KeyError`; under the
claimed empty-entry-set behavior the same lookup would succeed with "no
date".  So later lookups do not all behave as if the release recorded no
entries. -/
theorem c9_counterexample :
    ReadHistory (fun _ => none) ["9.04", "9.05"] [] "9.05" =
      Except.ok [] ∧
    alistGet ([] : Histories) "9.05" = none ∧
    GetDateForVersion [] ["9.04", "9.05"] "9.04" =
      Except.error PErr.keyError ∧
    GetDateForVersion [("9.05", [])] ["9.04", "9.05"] "9.04" =
      Except.ok none := by
  exact ⟨rfl, rfl, rfl, rfl⟩

/-- C9, amended: when neither changelog path exists, `ReadHistory`
returns successfully with the histories map unchanged (the recording
release stays absent — no empty entry set is created); lookups that test
membership first, such as the consistency checker's pair guards, then
skip the release as if it recorded no entries, but the unguarded
`histories[versions[-1]]` lookup in date resolution fails with a
`KeyError` when the absent release is the most recent one. -/
theorem c9_no_entry_set (fs : String → Option (List String))
    (versions : List String) (histories : Histories) (v : String)
    (hnone : findChangelog fs v = none)
    (hnotin : alistGet histories v = none) :
    ReadHistory fs versions histories v = Except.ok histories ∧
    (∀ v2, checkPair histories v v2 = true) ∧
    (∀ w, alistGet knownSdkDates w = none → versions.getLast? = some v →
      GetDateForVersion histories versions w = Except.error PErr.keyError) := by
  refine ⟨?_, ?_, ?_⟩
  · simp [ReadHistory, hnone, hnotin]
  · intro v2
    simp [checkPair, hnotin]
  · intro w hkn hlast
    simp [GetDateForVersion, hkn, hlast, hnotin]

/-- C6: a second run of the pipeline over the same inputs, starting from
the repository tags the first successful run left behind, is idempotent:
every version is already tagged and skipped, no commit is made,
`repo_changed` stays false, the "No new versions were found" notice is
printed, and the process exits 0. -/
theorem c6_second_run_idempotent (fs : String → Option (List String))
    (versions repoTags : List String) (out1 : Outcome)
    (h1 : mainRun fs versions repoTags = Except.ok out1) :
    ∃ out2, mainRun fs versions out1.repoTags = Except.ok out2 ∧
      out2.commits = [] ∧ out2.repoChanged = false ∧
      out2.noticePrinted = true ∧ out2.exitCode = 0 := by
  cases hrh : ReadHistories fs versions with
  | error e =>
    unfold mainRun at h1
    rw [hrh] at h1
    cases h1
  | ok hist =>
    unfold mainRun at h1
    rw [hrh] at h1
    simp only at h1
    cases h1
    have hcover : ∀ v ∈ versions,
        v ∈ (AddSdkVersions repoTags versions).repoTags := by
      unfold AddSdkVersions
      exact addAll_covers versions ⟨repoTags, repoTags, [], false⟩
        (fun x hx => by simpa using hx)
    have hskip : AddSdkVersions (AddSdkVersions repoTags versions).repoTags
        versions =
        ⟨(AddSdkVersions repoTags versions).repoTags,
         (AddSdkVersions repoTags versions).repoTags, [], false⟩ := by
      unfold AddSdkVersions
      apply addAll_skip
      intro v hv
      simpa using hcover v hv
    refine ⟨⟨(AddSdkVersions repoTags versions).repoTags, [], false,
      true, 0⟩, ?_, rfl, rfl, rfl, rfl⟩
    show mainRun fs versions (AddSdkVersions repoTags versions).repoTags =
      Except.ok ⟨(AddSdkVersions repoTags versions).repoTags, [], false,
        true, 0⟩
    unfold mainRun
    rw [hrh]
    dsimp only
    rw [hskip]
    rfl

/-- C6, witness: concrete two-run sequence over the single version
`9.07` with no changelog files and an initially empty repository. -/
theorem c6_witness :
    ∃ out2, mainRun (fun _ => none) ["9.07"]
        (Outcome.mk ["9.07"] ["9.07"] true false 0).repoTags =
        Except.ok out2 ∧
      out2.commits = [] ∧ out2.repoChanged = false ∧
      out2.noticePrinted = true ∧ out2.exitCode = 0 :=
  c6_second_run_idempotent (fun _ => none) ["9.07"] []
    (Outcome.mk ["9.07"] ["9.07"] true false 0) rfl

/-- C10: the non-empty-input assertion of `StripCommonIndentation` is
unreachable from parsing.  Every entry in progress starts its line list
with the heading line that opened it and only appends, so every line
list handed to `StripCommonIndentation` at finalization is non-empty
with the heading first: `ReadHistory` can never fail with the strip
assertion, and every finalized entry of a successful parse satisfies
`entriesWF` — it is `mkEntry` of a non-empty body whose first line (the
heading, with the common indentation removed) still matches as a heading
line for the entry's own subject version and date. -/
theorem c10_strip_assert_unreachable (fs : String → Option (List String))
    (versions : List String) (histories : Histories) (v : String) :
    ReadHistory fs versions histories v ≠ Except.error PErr.stripAssert ∧
    (∀ raw entries, findChangelog fs v = some raw →
      parseLines versions (preprocess raw) ⟨[], none⟩ = Except.ok entries →
      entriesWF entries) := by
  constructor
  · unfold ReadHistory
    by_cases hdup : (alistGet histories v).isSome = true
    · simp [hdup]
    · simp only [hdup, Bool.false_eq_true, if_false]
      cases hfind : findChangelog fs v with
      | none => simp
      | some raw =>
        cases hp : parseLines versions (preprocess raw) ⟨[], none⟩ with
        | error e =>
          dsimp only
          rw [hp]
          have hne := (parseLines_wf versions (preprocess raw) ⟨[], none⟩
            trivial (fun p hp0 => by cases hp0)).1
          rw [hp] at hne
          simpa using hne
        | ok entries => dsimp only; rw [hp]; simp
  · intro raw entries hfind hp
    exact (parseLines_wf versions (preprocess raw) ⟨[], none⟩ trivial
      (fun p hp0 => by cases hp0)).2 entries hp

/-- C10, witness: a concrete changelog with one heading line and one
indented body line parses without reaching the strip assertion, and the
resulting entry set satisfies the invariant. -/
theorem c10_witness :
    ReadHistory
      (fun p => if p = "extracted/9.04/history.txt" then
        some ["9.04  2009-05-30", "  - fix"] else none)
      ["9.04"] [] "9.04" ≠ Except.error PErr.stripAssert ∧
    entriesWF [("9.04",
      mkEntry "2009-05-30" ["9.04  2009-05-30", "  - fix"])] := by
  constructor
  · exact (c10_strip_assert_unreachable
      (fun p => if p = "extracted/9.04/history.txt" then
        some ["9.04  2009-05-30", "  - fix"] else none)
      ["9.04"] [] "9.04").1
  · exact (c10_strip_assert_unreachable
      (fun p => if p = "extracted/9.04/history.txt" then
        some ["9.04  2009-05-30", "  - fix"] else none)
      ["9.04"] [] "9.04").2 ["9.04  2009-05-30", "  - fix"]
      [("9.04", mkEntry "2009-05-30" ["9.04  2009-05-30", "  - fix"])]
      rfl rfl

/-- C9, witness for the amended theorem. -/
theorem c9_witness :
    ReadHistory (fun _ => none) ["9.04", "9.05"] [("9.04", [])] "9.05" =
      Except.ok [("9.04", [])] ∧
    checkPair [("9.04", [])] "9.05" "9.04" = true ∧
    GetDateForVersion [("9.04", [])] ["9.04", "9.05"] "9.04" =
      Except.error PErr.keyError := by
  obtain ⟨h1, h2, h3⟩ := c9_no_entry_set (fun _ => none) ["9.04", "9.05"]
    [("9.04", [])] "9.05" rfl rfl
  exact ⟨h1, h2 "9.04", h3 "9.04" rfl rfl⟩

end Lzma
